import Mathlib

/-!
Shallow embedding of `bin/numbas.py` — the Numbas exam packaging pipeline.

Paths (both destination-relative paths and on-disk source paths) are modelled
as lists of path segments: the Python string `./a/b.js` corresponds to the
segment list `[".", "a", "b.js"]`, the empty string to `[]`.  `os.path.join`
of a base with a relative component list is list append; all source roots
stored in the option structures below are pre-joined absolute roots, mirroring
the joins performed at `collectFiles` lines 104-120.

The filesystem is modelled by data carried in `Opts`: each overlay directory
carries its `os.walk` result (a list of `(subdirectory segments, filename)`
pairs in walk order), and `Opts.fs` gives the text content of every on-disk
path, `Opts.fexists` / `Opts.mtime` the existence and modification-time view
used by `compileToDir`.  External collaborators (the exam compiler, xml2js,
json.dumps of the locale table, etree serialization) are represented by
opaque string fields, as the spec directs.
-/

set_option autoImplicit false

namespace Numbas

/-- A slash-split path: `"./a/b.js"` ↦ `[".", "a", "b.js"]`, `""` ↦ `[]`. -/
abbrev Path := List String

/-- A virtual-file-table content source: `basestring` (a path to an on-disk
file) or an `io.StringIO` payload (lines 156, 181: `isinstance(src, basestring)`
distinguishes the two). -/
inductive Src where
  | file : Path → Src
  | mem : String → Src
deriving DecidableEq

/-- The virtual file table: a Python `dict` from destination path to content
source, represented as an association list in insertion order with unique
keys.  Overwriting an existing key keeps its position (Python dict semantics);
a fresh key is appended. -/
abbrev PyDict := List (Path × Src)

/-- `files[k]` lookup (first — and, for genuine dicts, only — binding). -/
def pyGet (d : PyDict) (k : Path) : Option Src :=
  (d.find? (fun e => decide (e.1 = k))).map (·.2)

/-- `files[k] = v`: replace in place if the key is present, else append. -/
def pyInsert (d : PyDict) (k : Path) (v : Src) : PyDict :=
  if d.any (fun e => decide (e.1 = k)) then
    d.map (fun e => if e.1 = k then (k, v) else e)
  else d ++ [(k, v)]

/-- `files.update(other)` / a loop of `files[k] = v` over `other` in order. -/
def pyUpdate (d other : PyDict) : PyDict :=
  other.foldl (fun a e => pyInsert a e.1 e.2) d

/-- Python `s.endswith(t)`, computed on the char lists. -/
def strEndsWith (s t : String) : Bool :=
  t.data.isSuffixOf s.data

/-- Line 96-97: `realFile` — exclude editor backup files (trailing `~` or
`.swp`). -/
def realFile (s : String) : Bool :=
  !(strEndsWith s "~" || strEndsWith s ".swp")

/-- One `(src, dst)` pair of the overlay directory list (line 119), together
with the `os.walk` result for its source root.  `srcRoot` is the absolute
source root (the code's `os.path.join(options.path, src)`, line 120). -/
structure Overlay where
  srcRoot : Path
  dstRoot : Path
  walk : List (Path × String)
deriving DecidableEq

/-- Lines 121-125: the table entries contributed by one overlay, in walk
order.  `xdst = x[0].replace(src, dst, 1)` substitutes the destination root
for the source-root prefix; `filter(realFile, x[2])` drops backup files. -/
def overlayEntries (ov : Overlay) : PyDict :=
  (ov.walk.filter (fun e => realFile e.2)).map
    (fun e => (ov.dstRoot ++ e.1 ++ [e.2], Src.file (ov.srcRoot ++ e.1 ++ [e.2])))

/-- The destination paths contributed by one overlay. -/
def overlayKeys (ov : Overlay) : List Path :=
  (overlayEntries ov).map (·.1)

/-- A declared named resource (line 101 normalizes each to a `[name, path]`
pair).  Line 104's `os.path.isdir(path)` test is the constructor tag: a
directory-valued resource carries its cwd-joined absolute root (line 105) and
walk; a single-file resource carries its path relative to `options.path`
(line 129 joins it with `options.path`). -/
inductive Resource where
  | dir : String → Path → List (Path × String) → Resource
  | file : String → Path → Resource
deriving DecidableEq

/-- A declared extension (lines 108-112): `name` is the basename
`os.path.split(x)[1]`; `isDir` is line 111's `os.path.isdir` test; `walk` the
walk of `options.path/extensions/name`. -/
structure ExtensionDecl where
  name : String
  isDir : Bool
  walk : List (Path × String)
deriving DecidableEq

/-- One resolved entry of `options.themepaths`: the resolved theme directory
and the walk of its `files` subdirectory (line 116). -/
structure ThemeDir where
  root : Path
  walk : List (Path × String)
deriving DecidableEq

/-- The SCORM manifest, reduced to the parts `makeExam` touches: the
`identifier` attribute, the organization `title` text, and the list of `href`
attributes of the `file` elements under the single `resource` element
(pre-existing template children first). -/
structure Manifest where
  identifier : String
  title : String
  fileRefs : List String
deriving DecidableEq

/-- The option object threaded through the pipeline, holding both the parsed
command-line options and the modelled filesystem/collaborator state. -/
structure Opts where
  /-- `options.path`: the Numbas files root (absolute). -/
  path : Path
  /-- `options.resources` (set from `exam.resources`, line 196). -/
  resources : List Resource
  /-- `options.extensions` (set from `exam.extensions`, line 197). -/
  extensions : List ExtensionDecl
  /-- `options.themepaths` as left by `run` (lines 405-412), base first. -/
  themepaths : List ThemeDir
  /-- The walk of `options.path/runtime` (the default overlay, line 99). -/
  runtimeWalk : List (Path × String)
  /-- The walk of `options.path/scormfiles` (line 252). -/
  scormWalk : List (Path × String)
  /-- `options.scorm`. -/
  scorm : Bool
  /-- `options.xmls`: the settings payload from the external `xml2js`
  collaborator (line 206). -/
  xmls : String
  /-- `options.locale`. -/
  locale : String
  /-- The locale bootstrap script text built at lines 219-226 (its
  `json.dumps` serializations are external collaborators, so the formatted
  result is carried opaquely). -/
  localeJs : String
  /-- The parsed `imsmanifest.xml` template (line 231). -/
  manifestTemplate : Manifest
  /-- `options.minify`: minifier command, `""` = disabled. -/
  minify : String
  /-- The external minifier as a capability: source path to stdout text or a
  failure (non-zero exit status) with stderr text (lines 284-287). -/
  minifier : Path → Except String String
  /-- File contents: `open(p).read()`. -/
  fs : Path → String
  /-- `options.action`: `"update"` or `"clean"`. -/
  action : String
  /-- `options.output`. -/
  output : Path
  /-- `os.path.exists` on destination paths (line 157). -/
  fexists : Path → Bool
  /-- `os.path.getmtime` (line 157); timestamps modelled as integers. -/
  mtime : Path → Int

/-- The default overlay `('runtime', '.')` with its source root joined to
`options.path` (lines 99, 120). -/
def runtimeOverlay (o : Opts) : Overlay :=
  ⟨o.path ++ ["runtime"], ["."], o.runtimeWalk⟩

/-- The `('scormfiles', '.')` overlay passed explicitly at line 252. -/
def scormOverlay (o : Opts) : Overlay :=
  ⟨o.path ++ ["scormfiles"], ["."], o.scormWalk⟩

/-- Lines 103-105: directory-valued resources are appended to `dirs` as
`(cwd-joined path, resources/<name>)` pairs. -/
def resourceOverlays (o : Opts) : List Overlay :=
  o.resources.filterMap (fun r =>
    match r with
    | Resource.dir n p w => some ⟨p, ["resources", n], w⟩
    | Resource.file _ _ => none)

/-- Lines 108-113: extension overlays
`(options.path/extensions/x, extensions/<basename x>)`, declaration order,
directories only. -/
def extensionOverlays (o : Opts) : List Overlay :=
  (o.extensions.filter (·.isDir)).map
    (fun e => ⟨o.path ++ ["extensions", e.name], ["extensions", e.name], e.walk⟩)

/-- Lines 115-116: one `(themepath/files, '.')` overlay per resolved theme
path, in `options.themepaths` order (base first). -/
def themeOverlays (o : Opts) : List Overlay :=
  o.themepaths.map (fun t => ⟨t.root ++ ["files"], ["."], t.walk⟩)

/-- Lines 99-116: the overlay list as `collectFiles` leaves it — the incoming
`dirs` argument, then directory resources, then extensions, then theme
paths.  (Note the code appends resources *before* extensions and themes.) -/
def collectFilesDirs (o : Opts) (dirs0 : List Overlay) : List Overlay :=
  dirs0 ++ resourceOverlays o ++ extensionOverlays o ++ themeOverlays o

/-- Lines 127-129: single-file resources inserted at `resources/<name>` with
source `options.path/path`, after the walk loop. -/
def singleFileResources (o : Opts) : PyDict :=
  o.resources.filterMap (fun r =>
    match r with
    | Resource.file n p => some (["resources", n], Src.file (o.path ++ p))
    | Resource.dir _ _ _ => none)

/-- Lines 118-131: build the table by inserting every overlay's entries in
overlay order (`files[...] = ...`, last write wins), then the single-file
resources. -/
def collectFilesFrom (o : Opts) (dirs0 : List Overlay) : PyDict :=
  pyUpdate (pyUpdate [] ((collectFilesDirs o dirs0).flatMap overlayEntries))
    (singleFileResources o)

/-- `collectFiles(options)` with the default `dirs=[('runtime','.')]`. -/
def collectFiles (o : Opts) : PyDict :=
  collectFilesFrom o [runtimeOverlay o]

/-- The mutable-default-argument semantics of `collectFiles` (line 99): the
default list object is shared across calls and mutated in place by the
`append`/`+=` at lines 105, 113, 116.  A call is a function of the argument
(`none` = defaulted) and the current state of the default list, returning the
table, the overlay list actually walked, and the default list after the
call. -/
def collectFilesCall (o : Opts) (arg : Option (List Overlay))
    (dflt : List Overlay) : PyDict × List Overlay × List Overlay :=
  match arg with
  | none =>
      let ds := collectFilesDirs o dflt
      (pyUpdate (pyUpdate [] (ds.flatMap overlayEntries)) (singleFileResources o),
       ds, ds)
  | some l =>
      let ds := collectFilesDirs o l
      (pyUpdate (pyUpdate [] (ds.flatMap overlayEntries)) (singleFileResources o),
       ds, dflt)

/-- The claim's stated priority order: runtime first, then extensions in
declaration order, then the theme chain base-to-leaf, then directory-valued
named resources last.  (The code's own append order, `collectFilesDirs`,
places the resource overlays second instead.) -/
def specOverlays (o : Opts) : List Overlay :=
  [runtimeOverlay o] ++ extensionOverlays o ++ themeOverlays o
    ++ resourceOverlays o

/-! ### makeExam: generated content, SCORM manifest, asset aggregation -/

/-- `os.path.splitext(...)[1]` computed on a basename, as a char list: the
extension starts at the last dot, provided some earlier character of the
basename is not a dot (so `.swp`-style dotfiles have no extension). -/
def splitextExtChars (b : List Char) : List Char :=
  let t := b.dropWhile (fun c => c = '.')
  if t.contains '.' then
    '.' :: (t.reverse.takeWhile (fun c => !(c = '.'))).reverse
  else []

/-- `os.path.splitext(dst)[1]` for a destination path: the extension of its
final segment. -/
def extOf (k : Path) : String :=
  String.mk (splitextExtChars ((k.getLast?).getD "").data)

/-- Read a content source: `open(src).read()` for a path, `src.read()` for a
StringIO (lines 266, 278). -/
def readSrc (fs : Path → String) : Src → String
  | Src.file p => fs p
  | Src.mem s => s

/-- Python `sep.join(items)`. -/
def pyJoinStr (sep : String) : List String → String
  | [] => ""
  | [a] => a
  | a :: b :: rest => a ++ sep ++ pyJoinStr sep (b :: rest)

/-- Lines 208-227: inject the settings payload and the locale script into the
freshly collected table. -/
def filesAfterInject (o : Opts) : PyDict :=
  let f := collectFiles o
  let f := pyInsert f [".", "settings.js"] (Src.mem o.xmls)
  pyInsert f [".", "locale.js"] (Src.mem o.localeJs)

/-- Lines 234-242 `to_relative_url`, `os.path.normpath` part: collapse empty
and `.` segments and resolve `..` against preceding segments (relative
paths; the code never passes absolute destination paths). -/
def normpathComps (l : Path) : Path :=
  l.foldl (fun acc s =>
    if s = "" ∨ s = "." then acc
    else if s = ".." then
      match acc.getLast? with
      | some a => if a = ".." then acc ++ [".."] else acc.dropLast
      | none => [".."]
    else acc ++ [s]) []

/-- `os.path.normpath` on a relative path (empty result becomes `.`). -/
def normpathSegs (l : Path) : Path :=
  let c := normpathComps l
  if c = [] then ["."] else c

/-- Lines 234-242: `to_relative_url` — normalize, split into components and
rejoin with `/`. -/
def to_relative_url (p : Path) : String :=
  String.intercalate "/" (normpathSegs p)

/-- Lines 230-250: patch the manifest template — set the identifier and the
organization title, and append one `file` element per current table key, with
`href` the slash-joined normalized destination path. -/
def patchManifest (o : Opts) (examName : String) (f : PyDict) : Manifest :=
  { identifier := "Numbas: " ++ examName
    title := examName
    fileRefs := o.manifestTemplate.fileRefs ++ f.map (fun e => to_relative_url e.1) }

/-- `etree.tostring` stand-in: an opaque serialization of the patched
manifest (its exact text is never inspected by the pipeline). -/
def manifestString (m : Manifest) : String :=
  String.intercalate "\n" (m.identifier :: m.title :: m.fileRefs)

/-- Lines 229-260: the SCORM block.  The manifest is patched from the table
as it stands *here* (before the scormfiles overlay, before aggregation); then
`files.update(collectFiles(options, [('scormfiles', '.')]))` overlays the
SCORM support files (note this call re-appends resources, extensions and
themes to its fresh list argument), and the serialized manifest is inserted
at `./imsmanifest.xml`. -/
def scormStage (o : Opts) (examName : String) (f : PyDict) :
    PyDict × Option Manifest :=
  if o.scorm then
    let m := patchManifest o examName f
    let f2 := pyUpdate f (collectFilesFrom o [scormOverlay o])
    (pyInsert f2 [".", "imsmanifest.xml"] (Src.mem (manifestString m)), some m)
  else (f, none)

/-- Line 275: the bootstrap loader's on-disk path
`options.path/runtime/scripts/numbas.js`. -/
def loaderPath (o : Opts) : Path :=
  o.path ++ ["runtime", "scripts", "numbas.js"]

/-- `list.remove(q)` on the collected script sources (line 276): drop the
first element equal to the path `q` (a StringIO never compares equal to a
string), or fail with `ValueError` (`none`) if no element matches. -/
def removeFirstFile : List Src → Path → Option (List Src)
  | [], _ => none
  | Src.file p :: rest, q =>
      if p = q then some rest
      else (removeFirstFile rest q).map (fun l => Src.file p :: l)
  | Src.mem s :: rest, q =>
      (removeFirstFile rest q).map (fun l => Src.mem s :: l)

/-- The fatal errors of the modelled pipeline stages. -/
inductive BuildError where
  | missingLoader : BuildError
  | minifyFailed : Path → BuildError
deriving DecidableEq

/-- Destination of the merged style bundle (line 267). -/
def stylesKey : Path := [".", "styles.css"]

/-- Destination of the merged script bundle (line 279). -/
def scriptsKey : Path := [".", "scripts.js"]

/-- Lines 262-267: collect every `.css` entry (in table order), delete them,
and insert the `\n`-joined concatenation at `./styles.css`. -/
def afterStyles (o : Opts) (f : PyDict) : PyDict :=
  let sheets := f.filter (fun e => decide (extOf e.1 = ".css"))
  let f2 := f.filter (fun e => !decide (extOf e.1 = ".css"))
  pyInsert f2 stylesKey
    (Src.mem (pyJoinStr "\n" (sheets.map (fun e => readSrc o.fs e.2))))

/-- Line 270: the `.js` entries (in table order) of the table after style
aggregation. -/
def javascriptsOf (o : Opts) (f : PyDict) : PyDict :=
  (afterStyles o f).filter (fun e => decide (extOf e.1 = ".js"))

/-- Lines 262-279: asset aggregation.  After the style pass, every `.js`
entry is deleted; `javascripts.remove(numbas_loader_path)` raises if the
loader source path is not among the collected script sources (modelled as
`BuildError.missingLoader`); otherwise the loader's content is concatenated
first, the remaining scripts following in table order, and the merged bundle
is inserted at `./scripts.js`. -/
def aggregate (o : Opts) (f : PyDict) : Except BuildError PyDict :=
  let f2 := (afterStyles o f).filter (fun e => !decide (extOf e.1 = ".js"))
  match removeFirstFile ((javascriptsOf o f).map (·.2)) (loaderPath o) with
  | none => Except.error BuildError.missingLoader
  | some rest =>
      Except.ok (pyInsert f2 scriptsKey
        (Src.mem (pyJoinStr "\n"
          (o.fs (loaderPath o) :: rest.map (readSrc o.fs)))))

/-- Lines 281-290: if a minifier is configured, each table entry that is both
file-backed and has the `.js` extension is replaced by the minifier's stdout;
a non-zero exit status aborts the build. -/
def minifyStage (o : Opts) (f : PyDict) : Except BuildError PyDict :=
  if o.minify = "" then Except.ok f
  else f.mapM (fun e =>
    match e with
    | (dst, Src.file p) =>
        if extOf dst = ".js" then
          match o.minifier p with
          | Except.ok out => Except.ok (dst, Src.mem out)
          | Except.error _ => Except.error (BuildError.minifyFailed p)
        else Except.ok (dst, Src.file p)
    | (dst, Src.mem s) => Except.ok (dst, Src.mem s))

/-- Lines 192-295 `makeExam`, from the point where the table is built: the
exam compilation itself (lines 193-206) is the external collaborator whose
outputs are the `xmls`/`resources`/`extensions` fields of `Opts` and the exam
name argument.  Returns the final table handed to the package writer and the
patched manifest (when SCORM). -/
def makeExam (o : Opts) (examName : String) :
    Except BuildError (PyDict × Option Manifest) :=
  let fm := scormStage o examName (filesAfterInject o)
  match aggregate o fm.1 with
  | Except.error e => Except.error e
  | Except.ok f1 =>
      match minifyStage o f1 with
      | Except.error e => Except.error e
      | Except.ok f2 => Except.ok (f2, fm.2)

/-! ### Package writers -/

/-- Lines 153-160 `compileToDir`, per entry: does this entry's destination
file get written?  A file-backed source is copied iff the build is clean, the
destination is missing, or the source is strictly newer (line 157); an
in-memory source is always written (line 160).  `dst` is joined to
`options.output` (line 154). -/
def dirEntryWrites (o : Opts) (dst : Path) (src : Src) : Bool :=
  match src with
  | Src.file p =>
      decide (o.action = "clean") || !(o.fexists (o.output ++ dst)) ||
        decide (o.mtime p > o.mtime (o.output ++ dst))
  | Src.mem _ => true

/-- The destination paths (relative to the output root) that `compileToDir`
actually writes, in table order. -/
def compileToDir (o : Opts) (f : PyDict) : List Path :=
  (f.filter (fun e => dirEntryWrites o e.1 e.2)).map (·.1)

/-- `head.rstrip('/')` part of `os.path.split` on a relative path: drop
trailing empty segments. -/
def stripTrailEmpty : List String → List String
  | [] => []
  | a :: rest =>
      match stripTrailEmpty rest with
      | [] => if a = "" then [] else [a]
      | r => a :: r

/-- `os.path.join(dirname, basename)` where `basename` has no slash: empty
dirname yields the basename alone; a dirname ending in a slash (trailing
empty segment) absorbs the separator. -/
def pyJoinSeg (d : List String) (b : String) : List String :=
  if d = [] then (if b = "" then [] else [b])
  else if d.getLast? = some "" then d.dropLast ++ [b]
  else d ++ [b]

/-- Lines 166-173 `cleanpath` (inside `compileToZip`): recursively split the
path, drop `.` basenames, and rejoin.  Mirrors the source's recursion on
`os.path.split`; total on relative paths (on absolute paths the Python
original recurses forever, which the segment model never reaches because a
relative head strictly shrinks). -/
def cleanpath (l : List String) : List String :=
  match l with
  | [] => []
  | a :: rest =>
      let b := ((a :: rest).getLast?).getD ""
      let d := cleanpath (stripTrailEmpty (a :: rest).dropLast)
      if b = "." then d else pyJoinSeg d b
termination_by l.length
decreasing_by
  simp only [List.length_cons]
  have key : ∀ m : List String, (stripTrailEmpty m).length ≤ m.length := by
    intro m
    induction m with
    | nil => simp [stripTrailEmpty]
    | cons x xs ih =>
        simp only [stripTrailEmpty]
        cases h : stripTrailEmpty xs with
        | nil => by_cases hx : x = "" <;> simp [hx]
        | cons y ys =>
            rw [h] at ih
            simpa using Nat.succ_le_succ ih
  have h1 := key (a :: rest).dropLast
  have h2 : (a :: rest).dropLast.length = rest.length := by
    simp [List.length_dropLast]
  omega

/-- Lines 164-190 `compileToZip`: each table entry becomes one archive entry
whose name is the cleaned destination path and whose bytes are the source's
content (mode and date metadata are environment state, not modelled). -/
def compileToZip (o : Opts) (f : PyDict) : List (List String × String) :=
  f.map (fun e => (cleanpath e.1, readSrc o.fs e.2))

/-! ### Theme chain resolution (`get_theme_path` and `run`, lines 297-412) -/

/-- Lines 297-305 `get_theme_path`: an identifier that exists as a path is
used directly, otherwise it is looked up under `options.path/themes`;
`none` models the `Couldn't find theme` exception.  `pexists` is the
`os.path.exists` view; theme identifiers and directories are handled as raw
strings here, as in the source. -/
def get_theme_path (pexists : String → Bool) (numbasPath : String)
    (theme : String) : Option String :=
  if pexists theme then some theme
  else
    let ntheme := numbasPath ++ "/themes/" ++ theme
    if pexists ntheme then some ntheme else none

/-- Failures of theme-chain resolution: a missing theme, or fuel exhaustion
(standing in for the unguarded non-termination on cyclic inheritance noted in
the spec). -/
inductive ThemeErr where
  | notFound : ThemeErr
  | fuelOut : ThemeErr
deriving DecidableEq

/-- Lines 406-411: the growing-list loop.  `acc` is the prefix of
`options.themepaths` already resolved in place; the worklist holds the not
yet visited tail.  Visiting a theme resolves it and appends the lines of its
`inherit.txt` (`inh` returns `none` when the file does not exist) to the
worklist. -/
def themeChainLoop (pexists : String → Bool) (numbasPath : String)
    (inh : String → Option (List String)) :
    Nat → List String → List String → Except ThemeErr (List String)
  | _, acc, [] => Except.ok acc
  | 0, _, _ :: _ => Except.error ThemeErr.fuelOut
  | Nat.succ fuel, acc, t :: rest =>
      match get_theme_path pexists numbasPath t with
      | none => Except.error ThemeErr.notFound
      | some r =>
          themeChainLoop pexists numbasPath inh fuel (acc ++ [r])
            (rest ++ (inh r).getD [])

/-- Lines 405-412: resolve `options.themepaths` from the requested theme and
reverse the result, so ancestors come first and the requested theme last. -/
def resolveThemepaths (pexists : String → Bool) (numbasPath : String)
    (inh : String → Option (List String)) (theme : String) (fuel : Nat) :
    Except ThemeErr (List String) :=
  (themeChainLoop pexists numbasPath inh fuel [] [theme]).map List.reverse

/-! ### Result projections used to state claims about build outcomes -/

/-- Whether a build result is a success. -/
def exceptOk (r : Except BuildError (PyDict × Option Manifest)) : Bool :=
  match r with
  | Except.ok _ => true
  | Except.error _ => false

/-- The final virtual file table of a successful build (`[]` on failure). -/
def finalTableOf (r : Except BuildError (PyDict × Option Manifest)) : PyDict :=
  match r with
  | Except.ok pr => pr.1
  | Except.error _ => []

/-- The patched manifest of a successful build. -/
def manifestOf (r : Except BuildError (PyDict × Option Manifest)) :
    Option Manifest :=
  match r with
  | Except.ok pr => pr.2
  | Except.error _ => none

/-- The manifest's `file` hrefs of a successful SCORM build (`[]` if the
build failed or produced no manifest). -/
def refsOf (r : Except BuildError (PyDict × Option Manifest)) : List String :=
  match manifestOf r with
  | some m => m.fileRefs
  | none => []

/-- Lookup in the post-aggregation table: `none` when aggregation failed. -/
def aggGet (o : Opts) (f : PyDict) (k : Path) : Option Src :=
  match aggregate o f with
  | Except.ok t => pyGet t k
  | Except.error _ => none

/-- `keys(f)` with no duplicates: the invariant every real Python dict
satisfies. -/
def nodupKeys (f : PyDict) : Prop :=
  (f.map (·.1)).Nodup

instance (f : PyDict) : Decidable (nodupKeys f) := by
  unfold nodupKeys
  infer_instance

/-- The segment filter `cleanpath` implements on well-formed destination
paths: keep everything except `.` and empty segments. -/
def keepSeg (s : String) : Bool :=
  !(s == "." || s == "")

/-! ### Concrete build fixtures used by the witnesses -/

/-- A small concrete build: a runtime tree holding the bootstrap loader and
one plain file, one theme shadowing that plain file, no extensions or
resources, and a configured minifier that always exits with status 1. -/
def exO : Opts where
  path := ["n"]
  resources := []
  extensions := []
  themepaths := [⟨["t1"], [([], "a.txt")]⟩]
  runtimeWalk := [(["scripts"], "numbas.js"), ([], "a.txt")]
  scormWalk := []
  scorm := false
  xmls := "S"
  locale := "en-GB"
  localeJs := "L"
  manifestTemplate := ⟨"mi", "mt", []⟩
  minify := "uglifyjs"
  minifier := fun _ => Except.error "fail"
  fs := fun p => if p = ["n", "runtime", "scripts", "numbas.js"] then "LOADER" else "X"
  action := "update"
  output := ["out"]
  fexists := fun _ => true
  mtime := fun _ => 0

/-- The same build with SCORM packaging requested. -/
def scormO : Opts :=
  { exO with scorm := true }

/-- A concrete pre-aggregation table: the loader plus one other script. -/
def exF : PyDict :=
  [([".", "scripts", "numbas.js"], Src.file ["n", "runtime", "scripts", "numbas.js"]),
   ([".", "extra.js"], Src.mem "EXTRA")]

/-- A concrete table in which a theme has replaced the entry at the
bootstrap destination path with its own source file. -/
def overriddenF : PyDict :=
  [([".", "scripts", "numbas.js"], Src.file ["t1", "files", "scripts", "numbas.js"])]

/-- The final table of the `exO` build (computed by `aggregate`). -/
def exT : PyDict :=
  [([".", "a.txt"], Src.file ["t1", "files", "a.txt"]),
   ([".", "styles.css"], Src.mem ""),
   ([".", "scripts.js"], Src.mem "LOADER\nS\nL")]

/-- The result of aggregating `exF`. -/
def exAggT : PyDict :=
  [([".", "styles.css"], Src.mem ""),
   ([".", "scripts.js"], Src.mem "LOADER\nEXTRA")]

/-- A one-entry final table for exercising the directory writer. -/
def exDirF : PyDict :=
  [([".", "a.txt"], Src.file ["n", "runtime", "a.txt"])]

deriving instance DecidableEq for Except

/-! ### Dictionary lemmas -/

/-- Left-biased combination of two lookups. -/
def oget : Option Src → Option Src → Option Src
  | some x, _ => some x
  | none, b => b

/-- The value the *last* binding of `k` in an entry list would give: entries
are inserted in order and last write wins. -/
def lastFind (l : PyDict) (k : Path) : Option Src :=
  (l.reverse.find? (fun e => decide (e.1 = k))).map (·.2)

theorem oget_none_right (a : Option Src) : oget a none = a := by
  cases a <;> rfl

theorem oget_assoc (a b c : Option Src) :
    oget (oget a b) c = oget a (oget b c) := by
  cases a <;> rfl

theorem pyGet_nil (k : Path) : pyGet [] k = none := rfl

theorem pyGet_cons (e : Path × Src) (d : PyDict) (k : Path) :
    pyGet (e :: d) k = if e.1 = k then some e.2 else pyGet d k := by
  simp only [pyGet, List.find?_cons]
  by_cases h : e.1 = k
  · simp [h]
  · simp [h]

theorem pyGet_append (d1 d2 : PyDict) (k : Path) :
    pyGet (d1 ++ d2) k = oget (pyGet d1 k) (pyGet d2 k) := by
  induction d1 with
  | nil => simp [pyGet_nil, oget]
  | cons e d ih =>
      rw [List.cons_append, pyGet_cons, pyGet_cons]
      by_cases h : e.1 = k
      · simp [h, oget]
      · simp [h, ih]

theorem pyGet_eq_none_of_not_mem (d : PyDict) (k : Path)
    (h : ∀ e ∈ d, e.1 ≠ k) : pyGet d k = none := by
  induction d with
  | nil => rfl
  | cons e d ih =>
      rw [pyGet_cons]
      have he : e.1 ≠ k := h e (by simp)
      simp only [he, if_false]
      exact ih (fun x hx => h x (by simp [hx]))

theorem pyGet_overwrite (d : PyDict) (k q : Path) (v : Src) :
    pyGet (d.map (fun e => if e.1 = k then (k, v) else e)) q
      = if q = k then (if d.any (fun e => decide (e.1 = k)) then some v else none)
        else pyGet d q := by
  induction d with
  | nil => by_cases hqk : q = k <;> simp [pyGet_nil, hqk]
  | cons e d ih =>
      rw [List.map_cons, pyGet_cons, pyGet_cons]
      by_cases hek : e.1 = k
      · by_cases hqk : q = k
        · have hkq : k = q := hqk.symm
          simp [hek, hkq, List.any_cons]
        · have hkq : ¬ (k = q) := fun hh => hqk hh.symm
          simp [hek, hqk, hkq, ih, List.any_cons]
      · by_cases heq : e.1 = q
        · have hqk : ¬ (q = k) := fun hh => hek (heq.trans hh)
          rw [if_neg hek, if_pos heq, if_neg hqk, if_pos heq]
        · by_cases hqk : q = k
          · rw [if_neg hek, if_neg heq, ih, if_pos hqk, if_pos hqk, List.any_cons]
            have hd : decide (e.1 = k) = false := by
              simp only [decide_eq_false_iff_not]
              exact hek
            rw [hd, Bool.false_or]
          · rw [if_neg hek, if_neg heq, ih, if_neg hqk, if_neg hqk, if_neg heq]

theorem pyGet_pyInsert (d : PyDict) (k q : Path) (v : Src) :
    pyGet (pyInsert d k v) q = if q = k then some v else pyGet d q := by
  unfold pyInsert
  by_cases hany : d.any (fun e => decide (e.1 = k)) = true
  · rw [if_pos hany, pyGet_overwrite, hany]
    by_cases hqk : q = k <;> simp [hqk]
  · rw [if_neg hany, pyGet_append]
    by_cases hqk : q = k
    · have hnone : pyGet d q = none := by
        apply pyGet_eq_none_of_not_mem
        intro e he hc
        exact hany (List.any_eq_true.mpr ⟨e, he, by simp [hc, hqk]⟩)
      rw [if_pos hqk, hqk] at *
      rw [hnone]
      simp [pyGet_cons, pyGet_nil, oget]
    · have hkq : ¬ (k = q) := fun hh => hqk hh.symm
      rw [if_neg hqk]
      have h2 : pyGet [(k, v)] q = none := by
        rw [pyGet_cons, if_neg hkq, pyGet_nil]
      rw [h2, oget_none_right]

theorem lastFind_nil (k : Path) : lastFind [] k = none := rfl

theorem lastFind_eq_none (l : PyDict) (k : Path)
    (h : ∀ e ∈ l, e.1 ≠ k) : lastFind l k = none := by
  unfold lastFind
  rw [List.find?_eq_none.mpr]
  · rfl
  · intro e he
    simp only [decide_eq_true_eq]
    exact h e (List.mem_reverse.mp he)

theorem lastFind_append (a b : PyDict) (k : Path) :
    lastFind (a ++ b) k = oget (lastFind b k) (lastFind a k) := by
  unfold lastFind
  rw [List.reverse_append]
  induction b.reverse with
  | nil => simp [oget]
  | cons e l ih =>
      rw [List.cons_append, List.find?_cons, List.find?_cons]
      by_cases h : e.1 = k
      · simp [h, oget]
      · have hd : decide (e.1 = k) = false := by simp [h]
        rw [hd]
        exact ih

theorem lastFind_cons (e : Path × Src) (l : PyDict) (k : Path) :
    lastFind (e :: l) k
      = oget (lastFind l k) (if e.1 = k then some e.2 else none) := by
  have : e :: l = [e] ++ l := rfl
  rw [this, lastFind_append]
  have h1 : lastFind [e] k = if e.1 = k then some e.2 else none := by
    unfold lastFind
    by_cases h : e.1 = k <;> simp [h]
  rw [h1]

theorem pyGet_pyUpdate (d : PyDict) (l : PyDict) (k : Path) :
    pyGet (pyUpdate d l) k = oget (lastFind l k) (pyGet d k) := by
  induction l generalizing d with
  | nil => rw [lastFind_nil]; rfl
  | cons e l ih =>
      show pyGet (pyUpdate (pyInsert d e.1 e.2) l) k = _
      rw [ih, pyGet_pyInsert, lastFind_cons, oget_assoc]
      congr 1
      by_cases h : e.1 = k
      · have hk : k = e.1 := h.symm
        rw [if_pos h, if_pos hk]
        rfl
      · have hk : ¬ (k = e.1) := fun hh => h hh.symm
        rw [if_neg h, if_neg hk]
        rfl

theorem lastFind_mem (l : PyDict) (k : Path) (v : Src)
    (h : lastFind l k = some v) : (k, v) ∈ l := by
  unfold lastFind at h
  rcases Option.map_eq_some'.mp h with ⟨e, he, hev⟩
  have hmem : e ∈ l := List.mem_reverse.mp (List.mem_of_find?_eq_some he)
  have hk : e.1 = k := by
    have := List.find?_some he
    simpa using this
  have : e = (k, v) := by
    cases e
    simp only at hk hev
    rw [hk, hev]
  exact this ▸ hmem

theorem lastFind_isSome (l : PyDict) (k : Path)
    (h : k ∈ l.map (·.1)) : ∃ v, lastFind l k = some v := by
  cases hf : lastFind l k with
  | some v => exact ⟨v, rfl⟩
  | none =>
      exfalso
      rcases List.mem_map.mp h with ⟨e, he, hek⟩
      unfold lastFind at hf
      have := List.find?_eq_none.mp (Option.map_eq_none'.mp hf)
      exact absurd (by simp [hek] : decide (e.1 = k) = true)
        (by simpa using this e (List.mem_reverse.mpr he))

/-! ### Overlay key shapes -/

theorem lastFind_flatMap_none (L : List Overlay) (k : Path)
    (h : ∀ ov ∈ L, k ∉ overlayKeys ov) :
    lastFind (L.flatMap overlayEntries) k = none := by
  apply lastFind_eq_none
  intro e he hc
  rcases List.mem_flatMap.mp he with ⟨ov, hov, hemem⟩
  exact h ov hov (hc ▸ List.mem_map_of_mem (·.1) hemem)

theorem overlayKeys_shape (ov : Overlay) (k : Path)
    (h : k ∈ overlayKeys ov) :
    ∃ rel fn, k = ov.dstRoot ++ rel ++ [fn] := by
  unfold overlayKeys overlayEntries at h
  rcases List.mem_map.mp h with ⟨e, he, hek⟩
  rcases List.mem_map.mp he with ⟨w, _, hw⟩
  exact ⟨w.1, w.2, by rw [← hek, ← hw]⟩

theorem overlayKeys_head (ov : Overlay) (k : Path)
    (h : k ∈ overlayKeys ov) (hne : ov.dstRoot ≠ []) :
    k.head? = ov.dstRoot.head? := by
  rcases overlayKeys_shape ov k h with ⟨rel, fn, hk⟩
  rw [hk]
  cases hd : ov.dstRoot with
  | nil => exact absurd hd hne
  | cons a l => simp

theorem overlayKeys_length (ov : Overlay) (k : Path)
    (h : k ∈ overlayKeys ov) :
    ov.dstRoot.length + 1 ≤ k.length := by
  rcases overlayKeys_shape ov k h with ⟨rel, fn, hk⟩
  rw [hk]
  simp

theorem mem_extensionOverlays_dstRoot (o : Opts) (ov : Overlay)
    (h : ov ∈ extensionOverlays o) : ∃ n, ov.dstRoot = ["extensions", n] := by
  unfold extensionOverlays at h
  rcases List.mem_map.mp h with ⟨e, _, he⟩
  exact ⟨e.name, by rw [← he]⟩

theorem mem_themeOverlays_dstRoot (o : Opts) (ov : Overlay)
    (h : ov ∈ themeOverlays o) : ov.dstRoot = ["."] := by
  unfold themeOverlays at h
  rcases List.mem_map.mp h with ⟨t, _, ht⟩
  rw [← ht]

theorem mem_resourceOverlays_dstRoot (o : Opts) (ov : Overlay)
    (h : ov ∈ resourceOverlays o) : ∃ n, ov.dstRoot = ["resources", n] := by
  unfold resourceOverlays at h
  rcases List.mem_filterMap.mp h with ⟨r, _, hr⟩
  cases r with
  | dir n p w =>
      refine ⟨n, ?_⟩
      simp only [Option.some_inj] at hr
      rw [← hr]
  | file n p => simp at hr

/-! ### cleanpath normalization -/

theorem stripTrailEmpty_length_le (l : List String) :
    (stripTrailEmpty l).length ≤ l.length := by
  induction l with
  | nil => simp [stripTrailEmpty]
  | cons x xs ih =>
      simp only [stripTrailEmpty]
      cases h : stripTrailEmpty xs with
      | nil => by_cases hx : x = "" <;> simp [hx]
      | cons y ys =>
          rw [h] at ih
          simpa using Nat.succ_le_succ ih

theorem stripTrailEmpty_eq_nil (m : List String) :
    stripTrailEmpty m = [] ↔ ∀ s ∈ m, s = "" := by
  induction m with
  | nil => simp [stripTrailEmpty]
  | cons a rest ih =>
      constructor
      · intro h
        unfold stripTrailEmpty at h
        cases hs : stripTrailEmpty rest with
        | nil =>
            rw [hs] at h
            by_cases ha : a = ""
            · intro s hmem
              rcases List.mem_cons.mp hmem with h1 | h2
              · exact h1 ▸ ha
              · exact (ih.mp hs) s h2
            · rw [if_neg ha] at h
              exact absurd h (by simp)
        | cons y ys => rw [hs] at h; exact absurd h (by simp)
      · intro h
        have ha : a = "" := h a (by simp)
        have hrest : stripTrailEmpty rest = [] :=
          ih.mpr (fun s hs => h s (by simp [hs]))
        unfold stripTrailEmpty
        rw [hrest, if_pos ha]

theorem keepSeg_empty : keepSeg "" = false := rfl

theorem filter_keepSeg_of_all_empty (m : List String)
    (h : ∀ s ∈ m, s = "") : m.filter keepSeg = [] := by
  apply List.filter_eq_nil_iff.mpr
  intro s hs
  rw [h s hs, keepSeg_empty]
  simp

theorem stripTrailEmpty_filter (m : List String) :
    (stripTrailEmpty m).filter keepSeg = m.filter keepSeg := by
  induction m with
  | nil => rfl
  | cons a rest ih =>
      unfold stripTrailEmpty
      cases hs : stripTrailEmpty rest with
      | nil =>
          have hempty : ∀ s ∈ rest, s = "" := (stripTrailEmpty_eq_nil rest).mp hs
          have hrest : rest.filter keepSeg = [] := filter_keepSeg_of_all_empty rest hempty
          by_cases ha : a = ""
          · rw [if_pos ha, List.filter_cons, ha, keepSeg_empty]
            simp [hrest]
          · rw [if_neg ha, List.filter_cons, List.filter_cons, hrest]
            rfl
      | cons y ys =>
          show List.filter keepSeg (a :: y :: ys) = List.filter keepSeg (a :: rest)
          rw [← hs, List.filter_cons, List.filter_cons, ih]

theorem stripTrailEmpty_head (m : List String) (h : m.head? ≠ some "") :
    (stripTrailEmpty m).head? ≠ some "" := by
  cases m with
  | nil => simp [stripTrailEmpty]
  | cons a rest =>
      have ha : a ≠ "" := by
        intro hc
        exact h (by simp [hc])
      unfold stripTrailEmpty
      cases hs : stripTrailEmpty rest with
      | nil =>
          rw [if_neg ha]
          simpa using ha
      | cons y ys => simpa using ha

theorem stripTrailEmpty_getLast (m : List String) :
    (stripTrailEmpty m).getLast? ≠ some "" := by
  induction m with
  | nil => simp [stripTrailEmpty]
  | cons a rest ih =>
      unfold stripTrailEmpty
      cases hs : stripTrailEmpty rest with
      | nil =>
          by_cases ha : a = ""
          · rw [if_pos ha]; simp
          · rw [if_neg ha]; simpa using ha
      | cons y ys =>
          rw [hs] at ih
          rw [List.getLast?_cons_cons]
          exact ih

theorem filter_keepSeg_getLast (m : List String) :
    (m.filter keepSeg).getLast? ≠ some "" := by
  intro hc
  have hmem : "" ∈ m.filter keepSeg := by
    rcases List.mem_getLast?_eq_getLast (by rw [hc]; rfl) with ⟨hne, heq⟩
    exact heq ▸ List.getLast_mem hne
  have := (List.mem_filter.mp hmem).2
  simp [keepSeg] at this

theorem dropLast_head (a : String) (rest : List String)
    (h : a ≠ "") : (a :: rest).dropLast.head? ≠ some "" := by
  cases rest with
  | nil => simp
  | cons b l =>
      rw [List.dropLast_cons₂]
      simpa using h

theorem cleanpath_eq_filter (l : List String)
    (h1 : l.head? ≠ some "") (h2 : l.getLast? ≠ some "") :
    cleanpath l = l.filter keepSeg := by
  have main : ∀ (n : Nat) (l : List String), l.length ≤ n →
      l.head? ≠ some "" → l.getLast? ≠ some "" →
      cleanpath l = l.filter keepSeg := by
    intro n
    induction n with
    | zero =>
        intro l hl _ _
        have : l = [] := List.length_eq_zero.mp (Nat.le_zero.mp hl)
        subst this
        rw [cleanpath]
        rfl
    | succ n ih =>
        intro l hl h1 h2
        cases l with
        | nil => rw [cleanpath]; rfl
        | cons a rest =>
            have hne : (a :: rest) ≠ [] := by simp
            have ha : a ≠ "" := by
              intro hc
              exact h1 (by simp [hc])
            set b := (a :: rest).getLast hne with hbdef
            have hlast : (a :: rest).getLast? = some b :=
              List.getLast?_eq_getLast_of_ne_nil hne
            have hb : b ≠ "" := by
              intro hc
              exact h2 (by rw [hlast, hc])
            have hsplit : (a :: rest).dropLast ++ [b] = a :: rest :=
              List.dropLast_append_getLast hne
            set m := stripTrailEmpty (a :: rest).dropLast with hmdef
            have hmlen : m.length ≤ n := by
              have e1 := stripTrailEmpty_length_le (a :: rest).dropLast
              rw [← hmdef] at e1
              have e2 : (a :: rest).dropLast.length = rest.length := by
                simp [List.length_dropLast]
              have e3 : rest.length + 1 ≤ n + 1 := by simpa using hl
              omega
            have hih : cleanpath m = m.filter keepSeg :=
              ih m hmlen
                (stripTrailEmpty_head _ (dropLast_head a rest ha))
                (stripTrailEmpty_getLast _)
            have hmf : m.filter keepSeg = (a :: rest).dropLast.filter keepSeg :=
              stripTrailEmpty_filter _
            have hfl : (a :: rest).filter keepSeg
                = (a :: rest).dropLast.filter keepSeg ++ [b].filter keepSeg := by
              rw [← List.filter_append, hsplit]
            rw [cleanpath]
            simp only [← hmdef, hlast, Option.getD_some]
            by_cases hbdot : b = "."
            · rw [if_pos hbdot, hih, hmf, hfl, hbdot]
              simp [keepSeg]
            · rw [if_neg hbdot, hih, hmf, hfl]
              have hkb : keepSeg b = true := by
                simp [keepSeg, hbdot, hb]
              rw [List.filter_cons]
              simp only [hkb, if_true, List.filter_nil]
              unfold pyJoinSeg
              by_cases hfe : (a :: rest).dropLast.filter keepSeg = []
              · rw [if_pos hfe, if_neg hb, hfe]
                rfl
              · rw [if_neg hfe, if_neg ?side]
                case side =>
                  exact filter_keepSeg_getLast (a :: rest).dropLast
  exact main l.length l (le_refl _) h1 h2

/-! ### Unique keys and the directory writer -/

theorem nodupKeys_val_unique (f : PyDict) (hnd : nodupKeys f) (k : Path)
    (a b : Src) (ha : (k, a) ∈ f) (hb : (k, b) ∈ f) : a = b := by
  induction f with
  | nil => simp at ha
  | cons e rest ih =>
      have hnd2 : (e.1 :: rest.map (·.1)).Nodup := by
        unfold nodupKeys at hnd
        rw [List.map_cons] at hnd
        exact hnd
      have hcons := List.nodup_cons.mp hnd2
      rcases List.mem_cons.mp ha with ha1 | ha2
      · rcases List.mem_cons.mp hb with hb1 | hb2
        · have hab : (k, a) = (k, b) := ha1.trans hb1.symm
          exact ((Prod.mk.injEq k a k b).mp hab).2
        · exfalso
          apply hcons.1
          have hek : e.1 = k := by rw [← ha1]
          rw [hek]
          exact List.mem_map_of_mem (·.1) hb2
      · rcases List.mem_cons.mp hb with hb1 | hb2
        · exfalso
          apply hcons.1
          have hek : e.1 = k := by rw [← hb1]
          rw [hek]
          exact List.mem_map_of_mem (·.1) ha2
        · refine ih ?_ ha2 hb2
          unfold nodupKeys
          exact hcons.2

theorem mem_compileToDir_iff (o : Opts) (f : PyDict) (q r : Path)
    (hnd : nodupKeys f) (hmem : (q, Src.file r) ∈ f) :
    q ∈ compileToDir o f ↔ dirEntryWrites o q (Src.file r) = true := by
  constructor
  · intro h
    rcases List.mem_map.mp h with ⟨e, he, heq⟩
    have hef : e ∈ f := (List.mem_filter.mp he).1
    have hw : dirEntryWrites o e.1 e.2 = true := (List.mem_filter.mp he).2
    have hkey : e = (q, e.2) := by
      cases e; simp only at heq; rw [heq]
    have hval : e.2 = Src.file r := by
      apply nodupKeys_val_unique f hnd q e.2 (Src.file r)
      · exact hkey ▸ hef
      · exact hmem
    rw [← hval, ← heq]
    exact hw
  · intro h
    apply List.mem_map.mpr
    refine ⟨(q, Src.file r), List.mem_filter.mpr ⟨hmem, h⟩, rfl⟩

/-! ### Aggregation structure -/

theorem extOf_stylesKey : extOf stylesKey = ".css" := by decide

theorem extOf_scriptsKey : extOf scriptsKey = ".js" := by decide

theorem pyInsert_fresh (d : PyDict) (k : Path) (v : Src)
    (h : ∀ e ∈ d, e.1 ≠ k) : pyInsert d k v = d ++ [(k, v)] := by
  unfold pyInsert
  rw [if_neg]
  intro hc
  rcases List.any_eq_true.mp hc with ⟨e, he, hek⟩
  exact h e he (by simpa using hek)

theorem mem_pyInsert (d : PyDict) (k : Path) (v : Src) (e : Path × Src)
    (h : e ∈ pyInsert d k v) : e ∈ d ∨ e = (k, v) := by
  unfold pyInsert at h
  by_cases hany : d.any (fun e => decide (e.1 = k)) = true
  · rw [if_pos hany] at h
    rcases List.mem_map.mp h with ⟨x, hx, hxe⟩
    by_cases hxk : x.1 = k
    · right
      rw [← hxe, if_pos hxk]
    · left
      rw [← hxe, if_neg hxk]
      exact hx
  · rw [if_neg hany] at h
    rcases List.mem_append.mp h with h1 | h2
    · exact Or.inl h1
    · exact Or.inr (by simpa using h2)

theorem afterStyles_eq (o : Opts) (f : PyDict) :
    afterStyles o f
      = f.filter (fun e => !decide (extOf e.1 = ".css"))
        ++ [(stylesKey, Src.mem (pyJoinStr "\n"
            ((f.filter (fun e => decide (extOf e.1 = ".css"))).map
              (fun e => readSrc o.fs e.2))))] := by
  unfold afterStyles
  apply pyInsert_fresh
  intro e he hc
  have := (List.mem_filter.mp he).2
  rw [hc] at this
  rw [extOf_stylesKey] at this
  simp at this

theorem removeFirstFile_eq_none (l : List Src) (q : Path)
    (h : ∀ s ∈ l, s ≠ Src.file q) : removeFirstFile l q = none := by
  induction l with
  | nil => rfl
  | cons s rest ih =>
      have hs : s ≠ Src.file q := h s (by simp)
      have hrest : removeFirstFile rest q = none :=
        ih (fun x hx => h x (by simp [hx]))
      cases s with
      | file p =>
          have hp : ¬ (p = q) := fun hc => hs (by rw [hc])
          unfold removeFirstFile
          rw [if_neg hp, hrest]
          rfl
      | mem m =>
          unfold removeFirstFile
          rw [hrest]
          rfl

theorem aggregate_eq (o : Opts) (f : PyDict) (rest : List Src)
    (h : removeFirstFile ((javascriptsOf o f).map (·.2)) (loaderPath o)
      = some rest) :
    aggregate o f = Except.ok
      ((afterStyles o f).filter (fun e => !decide (extOf e.1 = ".js"))
        ++ [(scriptsKey, Src.mem (pyJoinStr "\n"
            (o.fs (loaderPath o) :: rest.map (readSrc o.fs))))]) := by
  have h2 : pyInsert ((afterStyles o f).filter (fun e => !decide (extOf e.1 = ".js")))
      scriptsKey (Src.mem (pyJoinStr "\n"
        (o.fs (loaderPath o) :: rest.map (readSrc o.fs))))
      = (afterStyles o f).filter (fun e => !decide (extOf e.1 = ".js"))
        ++ [(scriptsKey, Src.mem (pyJoinStr "\n"
            (o.fs (loaderPath o) :: rest.map (readSrc o.fs))))] := by
    apply pyInsert_fresh
    intro e he hc
    have := (List.mem_filter.mp he).2
    rw [hc, extOf_scriptsKey] at this
    simp at this
  unfold aggregate
  rw [h]
  show Except.ok (pyInsert _ scriptsKey _) = _
  rw [h2]

theorem aggregate_err (o : Opts) (f : PyDict)
    (h : removeFirstFile ((javascriptsOf o f).map (·.2)) (loaderPath o)
      = none) :
    aggregate o f = Except.error BuildError.missingLoader := by
  unfold aggregate
  rw [h]

theorem minifyStage_ok (o : Opts) (f : PyDict)
    (h : ∀ e ∈ f, ∀ p, e.2 = Src.file p → extOf e.1 ≠ ".js") :
    minifyStage o f = Except.ok f := by
  unfold minifyStage
  by_cases hm : o.minify = ""
  · rw [if_pos hm]
  · rw [if_neg hm]
    induction f with
    | nil => rfl
    | cons e rest ih =>
        have hstep : (∀ e ∈ rest, ∀ p, e.2 = Src.file p → extOf e.1 ≠ ".js") :=
          fun x hx => h x (by simp [hx])
        have hrest := ih hstep
        rw [List.mapM_cons, hrest]
        cases e with
        | mk dst src =>
            cases src with
            | file p =>
                have : extOf dst ≠ ".js" := h (dst, Src.file p) (by simp) p rfl
                simp only [this, if_neg]
                rfl
            | mem m => rfl

/-! ### Claim theorems -/

/-- C7: in directory-output mode with a non-clean build, a file-backed entry
whose destination already exists with a modification timestamp not older than
the source's is not written; and a file-backed entry is written exactly when
the build is clean, the destination is missing, or the source is strictly
newer. -/
theorem compileToDir_incremental_skip (o : Opts) (f : PyDict) (k p q r : Path)
    (hnd : nodupKeys f)
    (hk : (k, Src.file p) ∈ f)
    (hq : (q, Src.file r) ∈ f)
    (hact : o.action ≠ "clean")
    (hex : o.fexists (o.output ++ k) = true)
    (hm : o.mtime p ≤ o.mtime (o.output ++ k)) :
    k ∉ compileToDir o f ∧
    (q ∈ compileToDir o f ↔
      (o.action = "clean" ∨ o.fexists (o.output ++ q) = false ∨
        o.mtime (o.output ++ q) < o.mtime r)) := by
  constructor
  · intro hmemc
    have hw := (mem_compileToDir_iff o f k p hnd hk).mp hmemc
    unfold dirEntryWrites at hw
    simp only [Bool.or_eq_true, decide_eq_true_eq, Bool.not_eq_true',
      or_assoc] at hw
    rcases hw with h1 | h2 | h3
    · exact hact h1
    · rw [hex] at h2
      exact Bool.noConfusion h2
    · exact absurd h3 (not_lt.mpr hm)
  · rw [mem_compileToDir_iff o f q r hnd hq]
    unfold dirEntryWrites
    simp only [Bool.or_eq_true, decide_eq_true_eq, Bool.not_eq_true',
      gt_iff_lt, or_assoc]

/-- Witness for C7 at a concrete build: the destination of `./a.txt` exists
and is as new as its source, the build is an update, so the entry is
skipped. -/
theorem compileToDir_incremental_skip_witness :
    [".", "a.txt"] ∉ compileToDir exO exDirF ∧
    ([".", "a.txt"] ∈ compileToDir exO exDirF ↔
      (exO.action = "clean" ∨
        exO.fexists (exO.output ++ [".", "a.txt"]) = false ∨
        exO.mtime (exO.output ++ [".", "a.txt"])
          < exO.mtime ["n", "runtime", "a.txt"])) :=
  compileToDir_incremental_skip exO exDirF [".", "a.txt"]
    ["n", "runtime", "a.txt"] [".", "a.txt"] ["n", "runtime", "a.txt"]
    (by decide) (by decide) (by decide) (by decide) (by decide) (by decide)

/-- C8: archive path normalization maps `./a/b.js` and `a/b.js` to the same
entry name `a/b.js`; in general, any two well-formed destination paths
(relative, not ending in a separator) that agree after dropping `.` and empty
segments are mapped to the same archive entry name. -/
theorem cleanpath_collapses_dot_segments :
    cleanpath [".", "a", "b.js"] = ["a", "b.js"] ∧
    cleanpath ["a", "b.js"] = ["a", "b.js"] ∧
    ∀ l1 l2 : List String,
      l1.head? ≠ some "" → l1.getLast? ≠ some "" →
      l2.head? ≠ some "" → l2.getLast? ≠ some "" →
      l1.filter keepSeg = l2.filter keepSeg →
      cleanpath l1 = cleanpath l2 := by
  refine ⟨?_, ?_, ?_⟩
  · rw [cleanpath_eq_filter [".", "a", "b.js"] (by decide) (by decide)]
    decide
  · rw [cleanpath_eq_filter ["a", "b.js"] (by decide) (by decide)]
    decide
  · intro l1 l2 h11 h12 h21 h22 hf
    rw [cleanpath_eq_filter l1 h11 h12, cleanpath_eq_filter l2 h21 h22, hf]

/-- Witness for C8: two concrete destination paths differing only in `.` and
empty segments receive the same archive entry name. -/
theorem cleanpath_collapses_dot_segments_witness :
    cleanpath [".", "x", "", "b.js"] = cleanpath ["x", ".", "b.js"] :=
  cleanpath_collapses_dot_segments.2.2 [".", "x", "", "b.js"]
    ["x", ".", "b.js"] (by decide) (by decide) (by decide) (by decide)
    (by decide)

/-- C2 counterexample: a theme `R` whose inheritance file lists ancestors `A`
then `B` (neither declaring further parents) resolves to the chain
`[B, A, R]`, not `[A, B, R]` as the claim states — the final `reverse` flips
the declaration order of the ancestors. -/
theorem themeChain_declaration_order_cex :
    resolveThemepaths (fun s => s == "R" || s == "A" || s == "B") "/numbas"
        (fun s => if s == "R" then some ["A", "B"] else none) "R" 5
      = Except.ok ["B", "A", "R"] ∧
    (["B", "A", "R"] : List String) ≠ ["A", "B", "R"] := by
  constructor
  · decide
  · decide

/-- C2 amended: when the requested theme's inheritance file lists ancestors
`A` then `B` and neither resolved ancestor declares further parents,
theme-chain resolution produces `[B, A, requested]` — the requested theme is
last, and the ancestors precede it in *reverse* declaration order. -/
theorem themeChain_reversed_order (pexists : String → Bool)
    (numbasPath : String) (inh : String → Option (List String))
    (R A B rR rA rB : String) (fuel : Nat)
    (hR : get_theme_path pexists numbasPath R = some rR)
    (hiR : inh rR = some [A, B])
    (hA : get_theme_path pexists numbasPath A = some rA)
    (hiA : (inh rA).getD [] = [])
    (hB : get_theme_path pexists numbasPath B = some rB)
    (hiB : (inh rB).getD [] = []) :
    resolveThemepaths pexists numbasPath inh R (fuel + 3)
      = Except.ok [rB, rA, rR] := by
  unfold resolveThemepaths
  have s1 : themeChainLoop pexists numbasPath inh (fuel + 3) [] [R]
      = themeChainLoop pexists numbasPath inh (fuel + 2) [rR] [A, B] := by
    show (match get_theme_path pexists numbasPath R with
      | none => Except.error ThemeErr.notFound
      | some r => themeChainLoop pexists numbasPath inh (fuel + 2) ([] ++ [r])
          ([] ++ (inh r).getD [])) = _
    simp [hR, hiR]
  have s2 : themeChainLoop pexists numbasPath inh (fuel + 2) [rR] [A, B]
      = themeChainLoop pexists numbasPath inh (fuel + 1) [rR, rA] [B] := by
    show (match get_theme_path pexists numbasPath A with
      | none => Except.error ThemeErr.notFound
      | some r => themeChainLoop pexists numbasPath inh (fuel + 1) ([rR] ++ [r])
          ([B] ++ (inh r).getD [])) = _
    simp [hA, hiA]
  have s3 : themeChainLoop pexists numbasPath inh (fuel + 1) [rR, rA] [B]
      = themeChainLoop pexists numbasPath inh fuel [rR, rA, rB] [] := by
    show (match get_theme_path pexists numbasPath B with
      | none => Except.error ThemeErr.notFound
      | some r => themeChainLoop pexists numbasPath inh fuel ([rR, rA] ++ [r])
          ([] ++ (inh r).getD [])) = _
    simp [hB, hiB]
  have s4 : themeChainLoop pexists numbasPath inh fuel [rR, rA, rB] []
      = Except.ok [rR, rA, rB] := by
    cases fuel <;> rfl
  rw [s1, s2, s3, s4]
  rfl

/-- Witness for C2's amended statement at concrete themes. -/
theorem themeChain_reversed_order_witness :
    resolveThemepaths (fun s => s == "R" || s == "A" || s == "B") "/numbas"
        (fun s => if s == "R" then some ["A", "B"] else none) "R" (2 + 3)
      = Except.ok ["B", "A", "R"] :=
  themeChain_reversed_order (fun s => s == "R" || s == "A" || s == "B")
    "/numbas" (fun s => if s == "R" then some ["A", "B"] else none)
    "R" "A" "B" "R" "A" "B" 2 (by decide) (by decide) (by decide) (by decide)
    (by decide) (by decide)

/-- C9: `collectFiles` mutates its default overlay argument in place — after
a defaulted call the shared default list holds the build's resource,
extension and theme overlays, so a second defaulted call walks a list that
extends the first call's final list instead of just `[('runtime', '.')]`. -/
theorem collectFiles_default_dirs_mutated (o : Opts)
    (h : themeOverlays o ≠ []) :
    (collectFilesCall o none [runtimeOverlay o]).2.2
      = [runtimeOverlay o] ++ resourceOverlays o ++ extensionOverlays o
        ++ themeOverlays o ∧
    (collectFilesCall o none
        ((collectFilesCall o none [runtimeOverlay o]).2.2)).2.1
      = ([runtimeOverlay o] ++ resourceOverlays o ++ extensionOverlays o
          ++ themeOverlays o) ++ resourceOverlays o ++ extensionOverlays o
        ++ themeOverlays o ∧
    (collectFilesCall o none [runtimeOverlay o]).2.2 ≠ [runtimeOverlay o] := by
  refine ⟨rfl, rfl, ?_⟩
  intro hc
  have hlen := congrArg List.length hc
  simp only [collectFilesCall, collectFilesDirs, List.length_append,
    List.length_cons, List.length_nil] at hlen
  have : 0 < (themeOverlays o).length := List.length_pos.mpr h
  omega

/-- Witness for C9: the concrete build has one theme overlay, so the default
list after one call differs from `[('runtime', '.')]`. -/
theorem collectFiles_default_dirs_mutated_witness :
    (collectFilesCall exO none [runtimeOverlay exO]).2.2
      = [runtimeOverlay exO] ++ resourceOverlays exO ++ extensionOverlays exO
        ++ themeOverlays exO ∧
    (collectFilesCall exO none
        ((collectFilesCall exO none [runtimeOverlay exO]).2.2)).2.1
      = ([runtimeOverlay exO] ++ resourceOverlays exO ++ extensionOverlays exO
          ++ themeOverlays exO) ++ resourceOverlays exO ++ extensionOverlays exO
        ++ themeOverlays exO ∧
    (collectFilesCall exO none [runtimeOverlay exO]).2.2 ≠ [runtimeOverlay exO] :=
  collectFiles_default_dirs_mutated exO (by decide)

/-- C3: when the bootstrap loader's source path is among the collected
scripts, the merged `./scripts.js` bundle is the loader's content followed by
the remaining scripts' contents in table order (so the bundle begins with the
loader's exact content); when it is absent, aggregation aborts the build. -/
theorem scripts_bootstrap_first (o : Opts) (f : PyDict) (rest : List Src)
    (o2 : Opts) (f2 : PyDict)
    (hsome : removeFirstFile ((javascriptsOf o f).map (·.2)) (loaderPath o)
      = some rest)
    (hnone : removeFirstFile ((javascriptsOf o2 f2).map (·.2)) (loaderPath o2)
      = none) :
    aggGet o f scriptsKey
      = some (Src.mem (pyJoinStr "\n"
          (o.fs (loaderPath o) :: rest.map (readSrc o.fs)))) ∧
    List.isPrefixOf (o.fs (loaderPath o)).data
      (pyJoinStr "\n" (o.fs (loaderPath o) :: rest.map (readSrc o.fs))).data
      = true ∧
    aggregate o2 f2 = Except.error BuildError.missingLoader := by
  refine ⟨?_, ?_, aggregate_err o2 f2 hnone⟩
  · unfold aggGet
    simp only [aggregate_eq o f rest hsome]
    rw [pyGet_append]
    have hG : pyGet ((afterStyles o f).filter
        (fun e => !decide (extOf e.1 = ".js"))) scriptsKey = none := by
      apply pyGet_eq_none_of_not_mem
      intro e he hc
      have := (List.mem_filter.mp he).2
      rw [hc, extOf_scriptsKey] at this
      simp at this
    rw [hG, pyGet_cons]
    simp [oget]
  · cases rest with
    | nil =>
        show List.isPrefixOf (o.fs (loaderPath o)).data
          (pyJoinStr "\n" [o.fs (loaderPath o)]).data = true
        show List.isPrefixOf (o.fs (loaderPath o)).data
          (o.fs (loaderPath o)).data = true
        simp [List.isPrefixOf_iff_prefix]
    | cons s rest2 =>
        have hjoin : pyJoinStr "\n"
            (o.fs (loaderPath o) :: (s :: rest2).map (readSrc o.fs))
            = o.fs (loaderPath o)
              ++ ("\n" ++ pyJoinStr "\n" ((s :: rest2).map (readSrc o.fs))) := by
          rw [List.map_cons]
          exact String.append_assoc (o.fs (loaderPath o)) "\n"
            (pyJoinStr "\n" (readSrc o.fs s :: rest2.map (readSrc o.fs)))
        rw [hjoin]
        simp only [String.data_append, List.isPrefixOf_iff_prefix]
        exact List.prefix_append _ _

/-- Witness for C3 on a concrete table holding the loader plus one other
script (present case) and on a table with no scripts at all (absent case). -/
theorem scripts_bootstrap_first_witness :
    aggGet exO exF scriptsKey
      = some (Src.mem (pyJoinStr "\n"
          (exO.fs (loaderPath exO) :: [Src.mem "EXTRA"].map (readSrc exO.fs)))) ∧
    List.isPrefixOf (exO.fs (loaderPath exO)).data
      (pyJoinStr "\n"
        (exO.fs (loaderPath exO) :: [Src.mem "EXTRA"].map (readSrc exO.fs))).data
      = true ∧
    aggregate exO [] = Except.error BuildError.missingLoader :=
  scripts_bootstrap_first exO exF [Src.mem "EXTRA"] exO [] (by decide)
    (by decide)

/-- C4: the minification pass never fires — aggregation has already replaced
every script entry with an in-memory merged bundle, so no table entry is both
file-backed and script-classed.  Whenever aggregation succeeds the whole
build succeeds, for every configured minifier, including one that always
exits with status 1; the build is not aborted and output is produced. -/
theorem minifier_never_invoked (o : Opts) (nm : String) (t : PyDict)
    (hagg : aggregate o (scormStage o nm (filesAfterInject o)).1
      = Except.ok t) :
    minifyStage o t = Except.ok t ∧
    makeExam o nm = Except.ok (t, (scormStage o nm (filesAfterInject o)).2) := by
  have hmin : minifyStage o t = Except.ok t := by
    apply minifyStage_ok
    intro e he p hep
    cases hrem : removeFirstFile
        ((javascriptsOf o (scormStage o nm (filesAfterInject o)).1).map (·.2))
        (loaderPath o) with
    | none =>
        rw [aggregate_err _ _ hrem] at hagg
        simp at hagg
    | some rest =>
        rw [aggregate_eq _ _ rest hrem] at hagg
        have ht : ((scormStage o nm (filesAfterInject o)).1 |> afterStyles o
              |>.filter (fun e => !decide (extOf e.1 = ".js")))
            ++ [(scriptsKey, Src.mem (pyJoinStr "\n"
                (o.fs (loaderPath o) :: rest.map (readSrc o.fs))))] = t := by
          injection hagg
        rw [← ht] at he
        rcases List.mem_append.mp he with h1 | h2
        · have := (List.mem_filter.mp h1).2
          simp only [Bool.not_eq_true', decide_eq_false_iff_not] at this
          exact this
        · exfalso
          have he2 : e = (scriptsKey, Src.mem (pyJoinStr "\n"
              (o.fs (loaderPath o) :: rest.map (readSrc o.fs)))) := by
            simpa using h2
          rw [he2] at hep
          exact Src.noConfusion hep
  refine ⟨hmin, ?_⟩
  simp only [makeExam, hagg, hmin]

/-- Witness for C4: the concrete build configures `uglifyjs` as minifier and
its capability always fails, yet the build completes with the merged
bundles untouched. -/
theorem minifier_never_invoked_witness :
    minifyStage exO exT = Except.ok exT ∧
    makeExam exO "E"
      = Except.ok (exT, (scormStage exO "E" (filesAfterInject exO)).2) :=
  minifier_never_invoked exO "E" exT (by decide)

/-- C5: after asset aggregation the table has exactly one entry with the
style extension — the merged `./styles.css` — and exactly one entry with the
script extension — the merged `./scripts.js`. -/
theorem aggregation_collapse (o : Opts) (f t : PyDict)
    (hagg : aggregate o f = Except.ok t) :
    (t.filter (fun e => decide (extOf e.1 = ".css"))).map (·.1) = [stylesKey] ∧
    (t.filter (fun e => decide (extOf e.1 = ".js"))).map (·.1) = [scriptsKey] := by
  cases hrem : removeFirstFile ((javascriptsOf o f).map (·.2)) (loaderPath o) with
  | none =>
      rw [aggregate_err o f hrem] at hagg
      simp at hagg
  | some rest =>
      rw [aggregate_eq o f rest hrem] at hagg
      have ht : ((afterStyles o f).filter (fun e => !decide (extOf e.1 = ".js")))
          ++ [(scriptsKey, Src.mem (pyJoinStr "\n"
              (o.fs (loaderPath o) :: rest.map (readSrc o.fs))))] = t := by
        injection hagg
      rw [← ht, afterStyles_eq, List.filter_append]
      constructor
      · rw [List.filter_append, List.filter_append]
        have h1 : ((f.filter (fun e => !decide (extOf e.1 = ".css"))).filter
            (fun e => !decide (extOf e.1 = ".js"))).filter
            (fun e => decide (extOf e.1 = ".css")) = [] := by
          apply List.filter_eq_nil_iff.mpr
          intro e he
          have h := (List.mem_filter.mp (List.mem_filter.mp he).1).2
          simp only [Bool.not_eq_true', decide_eq_false_iff_not] at h
          simpa using h
        have h2 : ([(stylesKey, Src.mem (pyJoinStr "\n"
            ((f.filter (fun e => decide (extOf e.1 = ".css"))).map
              (fun e => readSrc o.fs e.2))))].filter
            (fun e => !decide (extOf e.1 = ".js"))).filter
            (fun e => decide (extOf e.1 = ".css"))
            = [(stylesKey, Src.mem (pyJoinStr "\n"
              ((f.filter (fun e => decide (extOf e.1 = ".css"))).map
                (fun e => readSrc o.fs e.2))))] := by
          rw [List.filter_cons, List.filter_nil]
          have hc1 : (!decide (extOf stylesKey = ".js")) = true := by decide
          simp only [hc1, if_true]
          rw [List.filter_cons, List.filter_nil]
          have hc2 : (decide (extOf stylesKey = ".css")) = true := by decide
          simp only [hc2, if_true]
        have h3 : [(scriptsKey, Src.mem (pyJoinStr "\n"
            (o.fs (loaderPath o) :: rest.map (readSrc o.fs))))].filter
            (fun e => decide (extOf e.1 = ".css")) = [] := by
          rw [List.filter_cons, List.filter_nil]
          have hc3 : (decide (extOf scriptsKey = ".css")) = false := by decide
          simp only [hc3]
          rfl
        rw [h1, h2, h3]
        rfl
      · rw [List.filter_append]
        have h4 : ((f.filter (fun e => !decide (extOf e.1 = ".css"))
            ++ [(stylesKey, Src.mem (pyJoinStr "\n"
              ((f.filter (fun e => decide (extOf e.1 = ".css"))).map
                (fun e => readSrc o.fs e.2))))]).filter
            (fun e => !decide (extOf e.1 = ".js"))).filter
            (fun e => decide (extOf e.1 = ".js")) = [] := by
          apply List.filter_eq_nil_iff.mpr
          intro e he
          have h := (List.mem_filter.mp he).2
          simp only [Bool.not_eq_true', decide_eq_false_iff_not] at h
          simpa using h
        have h5 : [(scriptsKey, Src.mem (pyJoinStr "\n"
            (o.fs (loaderPath o) :: rest.map (readSrc o.fs))))].filter
            (fun e => decide (extOf e.1 = ".js"))
            = [(scriptsKey, Src.mem (pyJoinStr "\n"
              (o.fs (loaderPath o) :: rest.map (readSrc o.fs))))] := by
          rw [List.filter_cons, List.filter_nil]
          have hc4 : (decide (extOf scriptsKey = ".js")) = true := by decide
          simp only [hc4, if_true]
        rw [h4, h5]
        rfl

/-- Witness for C5 on the concrete `exF` table. -/
theorem aggregation_collapse_witness :
    ((exAggT.filter (fun e => decide (extOf e.1 = ".css"))).map (·.1)
      = [stylesKey]) ∧
    ((exAggT.filter (fun e => decide (extOf e.1 = ".js"))).map (·.1)
      = [scriptsKey]) :=
  aggregation_collapse exO exF exAggT (by decide)

/-- C10: the bootstrap loader is identified by its on-disk source path, not
by its destination path — if the entry at the bootstrap destination was
replaced by a different source file and the loader path appears nowhere among
the table's sources, aggregation aborts even though a script entry exists at
the bootstrap destination. -/
theorem bootstrap_identified_by_source_path (o : Opts) (f : PyDict) (p : Path)
    (hdst : pyGet f [".", "scripts", "numbas.js"] = some (Src.file p))
    (hne : p ≠ loaderPath o)
    (habs : ∀ e ∈ f, e.2 ≠ Src.file (loaderPath o)) :
    extOf [".", "scripts", "numbas.js"] = ".js" ∧
    aggregate o f = Except.error BuildError.missingLoader := by
  refine ⟨by decide, ?_⟩
  apply aggregate_err
  apply removeFirstFile_eq_none
  intro s hs hc
  rcases List.mem_map.mp hs with ⟨e, he, hes⟩
  have he1 : e ∈ afterStyles o f := by
    unfold javascriptsOf at he
    exact (List.mem_filter.mp he).1
  rw [afterStyles_eq] at he1
  rcases List.mem_append.mp he1 with h1 | h2
  · exact habs e (List.mem_filter.mp h1).1 (by rw [hes, hc])
  · have he2 : e.2 = Src.mem (pyJoinStr "\n"
        ((f.filter (fun e => decide (extOf e.1 = ".css"))).map
          (fun e => readSrc o.fs e.2))) := by
      have : e = (stylesKey, Src.mem (pyJoinStr "\n"
          ((f.filter (fun e => decide (extOf e.1 = ".css"))).map
            (fun e => readSrc o.fs e.2)))) := by simpa using h2
      rw [this]
    rw [hes, hc] at he2
    exact Src.noConfusion he2

/-- Witness for C10: a theme has replaced `./scripts/numbas.js` with its own
file, the loader source path is absent, and aggregation fails. -/
theorem bootstrap_identified_by_source_path_witness :
    extOf [".", "scripts", "numbas.js"] = ".js" ∧
    aggregate exO overriddenF = Except.error BuildError.missingLoader :=
  bootstrap_identified_by_source_path exO overriddenF
    ["t1", "files", "scripts", "numbas.js"] (by decide) (by decide) (by decide)

theorem makeExam_snd (o : Opts) (nm : String) (pr : PyDict × Option Manifest)
    (h : makeExam o nm = Except.ok pr) :
    pr.2 = (scormStage o nm (filesAfterInject o)).2 := by
  simp only [makeExam] at h
  split at h
  · exact absurd h (by simp)
  · split at h
    · exact absurd h (by simp)
    · injection h with hh
      rw [← hh]

/-- C6 counterexample: in the concrete SCORM build, the final table handed to
the package writer contains `./scripts.js`, but the patched manifest has no
`file` element for it — and conversely the manifest lists `settings.js`,
which is absent from the final table (it was merged away).  The manifest is
patched from the pre-aggregation table, not the final one. -/
theorem manifest_not_final_table_cex :
    [".", "scripts.js"] ∈ (finalTableOf (makeExam scormO "E")).map (·.1) ∧
    to_relative_url [".", "scripts.js"] ∉ refsOf (makeExam scormO "E") ∧
    "settings.js" ∈ refsOf (makeExam scormO "E") ∧
    [".", "settings.js"] ∉ (finalTableOf (makeExam scormO "E")).map (·.1) :=
  ⟨by decide, by decide, by decide, by decide⟩

/-- C6 amended: the patched manifest contains one `file` element, with `href`
the slash-joined normalized destination path, for every destination path in
the table *as it stands at manifest-patch time* — after settings and locale
injection, before the scormfiles overlay, the manifest's own entry, and asset
aggregation — appended after the template's pre-existing refs; it does not
reflect the final table handed to the package writer. -/
theorem manifest_lists_patch_time_table (o : Opts) (nm : String)
    (hs : o.scorm = true) (hok : exceptOk (makeExam o nm) = true) :
    manifestOf (makeExam o nm)
      = some (patchManifest o nm (filesAfterInject o)) ∧
    (patchManifest o nm (filesAfterInject o)).fileRefs
      = o.manifestTemplate.fileRefs
        ++ (filesAfterInject o).map (fun e => to_relative_url e.1) := by
  have hsc : (scormStage o nm (filesAfterInject o)).2
      = some (patchManifest o nm (filesAfterInject o)) := by
    unfold scormStage
    rw [if_pos hs]
  constructor
  · cases hmk : makeExam o nm with
    | error e =>
        rw [hmk] at hok
        simp [exceptOk] at hok
    | ok pr =>
        have h2 := makeExam_snd o nm pr hmk
        unfold manifestOf
        show pr.2 = some (patchManifest o nm (filesAfterInject o))
        rw [h2, hsc]
  · rfl

/-- Witness for C6's amended statement on the concrete SCORM build. -/
theorem manifest_lists_patch_time_table_witness :
    manifestOf (makeExam scormO "E")
      = some (patchManifest scormO "E" (filesAfterInject scormO)) ∧
    (patchManifest scormO "E" (filesAfterInject scormO)).fileRefs
      = scormO.manifestTemplate.fileRefs
        ++ (filesAfterInject scormO).map (fun e => to_relative_url e.1) :=
  manifest_lists_patch_time_table scormO "E" (by decide) (by decide)

/-! ### Overlay priority (C1) -/

theorem codeEntries_decomp (o : Opts) :
    (collectFilesDirs o [runtimeOverlay o]).flatMap overlayEntries
      = overlayEntries (runtimeOverlay o)
        ++ (resourceOverlays o).flatMap overlayEntries
        ++ (extensionOverlays o).flatMap overlayEntries
        ++ (themeOverlays o).flatMap overlayEntries := by
  unfold collectFilesDirs
  simp [List.flatMap_append]

theorem specEntries_decomp (o : Opts) :
    (specOverlays o).flatMap overlayEntries
      = overlayEntries (runtimeOverlay o)
        ++ (extensionOverlays o).flatMap overlayEntries
        ++ (themeOverlays o).flatMap overlayEntries
        ++ (resourceOverlays o).flatMap overlayEntries := by
  unfold specOverlays
  simp [List.flatMap_append]

theorem key_head_runtime (o : Opts) (k : Path)
    (h : k ∈ overlayKeys (runtimeOverlay o)) : k.head? = some "." := by
  have hh := overlayKeys_head (runtimeOverlay o) k h (by simp [runtimeOverlay])
  simpa [runtimeOverlay] using hh

theorem key_head_theme (o : Opts) (ov : Overlay) (k : Path)
    (hov : ov ∈ themeOverlays o) (h : k ∈ overlayKeys ov) :
    k.head? = some "." := by
  have hd := mem_themeOverlays_dstRoot o ov hov
  have hh := overlayKeys_head ov k h (by rw [hd]; simp)
  rw [hh, hd]
  rfl

theorem key_head_ext (o : Opts) (ov : Overlay) (k : Path)
    (hov : ov ∈ extensionOverlays o) (h : k ∈ overlayKeys ov) :
    k.head? = some "extensions" := by
  rcases mem_extensionOverlays_dstRoot o ov hov with ⟨n, hd⟩
  have hh := overlayKeys_head ov k h (by rw [hd]; simp)
  rw [hh, hd]
  rfl

theorem key_shape_res (o : Opts) (ov : Overlay) (k : Path)
    (hov : ov ∈ resourceOverlays o) (h : k ∈ overlayKeys ov) :
    k.head? = some "resources" ∧ 3 ≤ k.length := by
  rcases mem_resourceOverlays_dstRoot o ov hov with ⟨n, hd⟩
  constructor
  · have hh := overlayKeys_head ov k h (by rw [hd]; simp)
    rw [hh, hd]
    rfl
  · have hl := overlayKeys_length ov k h
    rw [hd] at hl
    simpa using hl

theorem lastFind_res_none (o : Opts) (k : Path)
    (hk : k.head? ≠ some "resources") :
    lastFind ((resourceOverlays o).flatMap overlayEntries) k = none :=
  lastFind_flatMap_none _ _
    (fun ov hov hmem => hk (key_shape_res o ov k hov hmem).1)

theorem lastFind_code_eq_spec (o : Opts) (k : Path) :
    lastFind ((collectFilesDirs o [runtimeOverlay o]).flatMap overlayEntries) k
      = lastFind ((specOverlays o).flatMap overlayEntries) k := by
  rw [codeEntries_decomp, specEntries_decomp]
  simp only [lastFind_append]
  by_cases hk : k.head? = some "resources"
  · have hdot : some "." ≠ some "resources" := by decide
    have hext : some "extensions" ≠ some "resources" := by decide
    have hrt : lastFind (overlayEntries (runtimeOverlay o)) k = none := by
      apply lastFind_eq_none
      intro e he hc
      have := key_head_runtime o e.1 (List.mem_map_of_mem (·.1) he)
      rw [hc, hk] at this
      exact hdot this.symm
    have hth : lastFind ((themeOverlays o).flatMap overlayEntries) k = none := by
      apply lastFind_flatMap_none
      intro ov hov hmem
      have := key_head_theme o ov k hov hmem
      rw [hk] at this
      exact hdot this.symm
    have hex : lastFind ((extensionOverlays o).flatMap overlayEntries) k = none := by
      apply lastFind_flatMap_none
      intro ov hov hmem
      have := key_head_ext o ov k hov hmem
      rw [hk] at this
      exact hext this.symm
    rw [hrt, hth, hex]
    cases lastFind ((resourceOverlays o).flatMap overlayEntries) k <;> rfl
  · have hres : lastFind ((resourceOverlays o).flatMap overlayEntries) k = none :=
      lastFind_res_none o k hk
    rw [hres]
    cases lastFind (overlayEntries (runtimeOverlay o)) k <;>
      cases lastFind ((themeOverlays o).flatMap overlayEntries) k <;>
        cases lastFind ((extensionOverlays o).flatMap overlayEntries) k <;> rfl

theorem pyGet_singles_bypass (o : Opts) (d : PyDict) (k : Path)
    (h : k.head? ≠ some "resources" ∨ k.length ≠ 2) :
    pyGet (pyUpdate d (singleFileResources o)) k = pyGet d k := by
  rw [pyGet_pyUpdate]
  have hnone : lastFind (singleFileResources o) k = none := by
    apply lastFind_eq_none
    intro e he hc
    unfold singleFileResources at he
    rcases List.mem_filterMap.mp he with ⟨r, _, hrr⟩
    cases r with
    | file n p =>
        simp only [Option.some_inj] at hrr
        rcases h with h1 | h2
        · apply h1
          rw [← hc, ← hrr]
          rfl
        · apply h2
          rw [← hc, ← hrr]
          rfl
    | dir n p w => simp at hrr
  rw [hnone]
  rfl

theorem spec_overlay_key_shape (o : Opts) (A : Overlay) (k : Path)
    (hA : A ∈ specOverlays o) (hk : k ∈ overlayKeys A) :
    k.head? ≠ some "resources" ∨ k.length ≠ 2 := by
  unfold specOverlays at hA
  rcases List.mem_append.mp hA with h1 | h4
  · rcases List.mem_append.mp h1 with h2 | h3
    · rcases List.mem_append.mp h2 with h5 | h6
      · left
        have he : A = runtimeOverlay o := by simpa using h5
        have := key_head_runtime o k (he ▸ hk)
        rw [this]
        decide
      · left
        have := key_head_ext o A k h6 hk
        rw [this]
        decide
    · left
      have := key_head_theme o A k h3 hk
      rw [this]
      decide
  · right
    have := (key_shape_res o A k h4 hk).2
    omega

/-- C1: the override winner at any destination path is the entry from the
*last* overlay, in the spec's fixed priority order (runtime, then extensions
in declaration order, then the theme chain base-to-leaf, then
directory-valued named resources), that contributes that path — for every
build configuration and hence for every filesystem walk order within each
overlay.  (The code appends resource overlays second rather than last, but a
resource overlay's destination paths are prefix-disjoint from all other
overlays' paths, so the spec's priority order predicts every collision's
winner correctly.) -/
theorem collectFiles_priority_override (o : Opts) (k : Path)
    (pre post : List Overlay) (A : Overlay)
    (horder : specOverlays o = pre ++ A :: post)
    (hk : k ∈ overlayKeys A)
    (hlater : ∀ B ∈ post, k ∉ overlayKeys B) :
    ∃ v, pyGet (collectFiles o) k = some v ∧ (k, v) ∈ overlayEntries A := by
  have hA : A ∈ specOverlays o := by
    rw [horder]
    simp
  have hshape := spec_overlay_key_shape o A k hA hk
  have h1 : pyGet (collectFiles o) k
      = pyGet (pyUpdate []
          ((collectFilesDirs o [runtimeOverlay o]).flatMap overlayEntries)) k := by
    show pyGet (pyUpdate (pyUpdate [] _) (singleFileResources o)) k = _
    exact pyGet_singles_bypass o _ k hshape
  have h2 : pyGet (pyUpdate []
        ((collectFilesDirs o [runtimeOverlay o]).flatMap overlayEntries)) k
      = lastFind ((collectFilesDirs o [runtimeOverlay o]).flatMap overlayEntries) k := by
    rw [pyGet_pyUpdate, pyGet_nil, oget_none_right]
  rcases lastFind_isSome (overlayEntries A) k hk with ⟨v, hv⟩
  have h4 : lastFind ((specOverlays o).flatMap overlayEntries) k
      = some v := by
    rw [horder, List.flatMap_append, List.flatMap_cons, lastFind_append,
      lastFind_append, lastFind_flatMap_none post k hlater, hv]
    rfl
  refine ⟨v, ?_, lastFind_mem _ _ _ hv⟩
  rw [h1, h2, lastFind_code_eq_spec, h4]

/-- Witness for C1: in the concrete build the theme overlay is the last
spec-priority overlay contributing `./a.txt`, and its entry wins over the
runtime file of the same destination path. -/
theorem collectFiles_priority_override_witness :
    ∃ v, pyGet (collectFiles exO) [".", "a.txt"] = some v ∧
      ([".", "a.txt"], v)
        ∈ overlayEntries ⟨["t1", "files"], ["."], [([], "a.txt")]⟩ :=
  collectFiles_priority_override exO [".", "a.txt"] [runtimeOverlay exO] []
    ⟨["t1", "files"], ["."], [([], "a.txt")]⟩ (by decide) (by decide)
    (by simp)

end Numbas
